import Mathlib

/-!
# Key buffer of qmk_sequence_transform

A shallow embedding of `src/keybuffer.c`: the circular history buffer
`st_key_buffer_t`, its index translation `get_real_index`, the window
bookkeeping `resize_context`, and the public operations
`st_key_buffer_get`, `st_key_buffer_get_keycode`, `st_key_buffer_reset`,
`st_key_buffer_push` and `st_key_buffer_pop`.

Conventions of the embedding.

* C `int` values are integers of `Int`.  Under the buffer invariant every
  intermediate value of the functions below lies between `-2 * size` and
  `2 * size`, so no `int` computation of the source overflows for a buffer
  whose size fits a quarter of the `int` range, and `Int` arithmetic agrees
  with the machine arithmetic.
* `uint16_t` and `uint8_t` values are naturals, reduced modulo `2 ^ 16` and
  `2 ^ 8` where the source converts to these types (the parameter of
  `st_key_buffer_push`, its local `lowkey`, the parameter of
  `st_key_buffer_pop`).
* The storage `buf->data` is a list of records; a pointer into it, as returned
  by `st_key_buffer_get`, is the slot number, and `NULL` is `none`.
* The `uprintf` calls only produce diagnostic output and are not part of the
  state; `st_key_buffer_print` changes nothing and is not embedded.
-/

namespace KeyBuffer

/-! ## Data model -/

/-- One history record, `struct st_key_action_t`: the key pressed and the
action later taken on it (both `uint16_t`). -/
structure st_key_action_t where
  keypressed : Nat
  action_taken : Nat
deriving DecidableEq

/-- The buffer `st_key_buffer_t`: the storage, its capacity `size`, the length
`context_len` of the window of valid history and the slot `cur_pos` of the
newest record. -/
structure st_key_buffer_t where
  data : List st_key_action_t
  size : Int
  context_len : Int
  cur_pos : Int
deriving DecidableEq

/-- Modelled from the spec: the keycode constant `KC_NO` of the absent header
`quantum_keycodes.h`, the reserved keycode that means "no event". -/
def KC_NO : Nat := 0x00

/-- Modelled from the spec: the keycode constant `KC_A` of the absent header
`quantum_keycodes.h`, first keycode of the alphabetic range. -/
def KC_A : Nat := 0x04

/-- Modelled from the spec: the keycode constant `KC_Z` of the absent header
`quantum_keycodes.h`, last keycode of the alphabetic range. -/
def KC_Z : Nat := 0x1D

/-- Modelled from the spec: the keycode constant `KC_SPC` of the absent header
`quantum_keycodes.h`, the space character. -/
def KC_SPC : Nat := 0x2C

/-- Modelled from the spec: the constant `QK_LSFT` of the absent header
`quantum_keycodes.h`, the flag bit of a shifted keycode. -/
def QK_LSFT : Nat := 0x0200

/-- Modelled from the spec: the constant `ST_DEFAULT_KEY_ACTION` of the absent
header `keybuffer.h`, the "none" marker of `action_taken`.  The source only
uses it as a mask whose result is converted to `uint8_t`, so only its low
byte `0xFF` takes part. -/
def ST_DEFAULT_KEY_ACTION : Nat := 0xFFFF

/-- Modelled from the spec: the macro `IS_ALPHA_KEYCODE` of the absent header
`utils.h`, membership in the alphabetic keycode range `KC_A .. KC_Z`. -/
def IS_ALPHA_KEYCODE (code : Nat) : Bool :=
  decide (KC_A ≤ code) && decide (code ≤ KC_Z)

/-- The buffer invariant of the data model: a positive capacity, the cursor
inside the storage, the window no longer than the capacity. -/
def Valid (buf : st_key_buffer_t) : Prop :=
  1 ≤ buf.size ∧ 0 ≤ buf.cur_pos ∧ buf.cur_pos < buf.size ∧
    0 ≤ buf.context_len ∧ buf.context_len ≤ buf.size

instance (buf : st_key_buffer_t) : Decidable (Valid buf) := by
  unfold Valid; infer_instance

/-- The storage behind `buf->data` has exactly `size` slots. -/
def Backed (buf : st_key_buffer_t) : Prop :=
  (buf.data.length : Int) = buf.size

instance (buf : st_key_buffer_t) : Decidable (Backed buf) := by
  unfold Backed; infer_instance

/-! ## Private helper functions (keybuffer.c, lines 18-59) -/

/-- Translation of a logical index to a physical slot, `get_real_index`;
`-1` is the invalid marker. -/
def get_real_index (buf : st_key_buffer_t) (index : Int) : Int :=
  let index := if index < 0 then index + buf.context_len else index
  if index ≥ buf.context_len ∨ index < 0 then
    -1
  else
    let index := buf.cur_pos - index
    if index < 0 then index + buf.size else index

/-- The guard of `resize_context` (line 36): the request is reported and
dropped when it holds. -/
def resize_rejected (buf : st_key_buffer_t) (delta : Int) : Bool :=
  decide (delta < -buf.size ∨ delta > buf.size)

/-- Window and cursor update, `resize_context`.  The record at the new
`cur_pos` is left as it is. -/
def resize_context (buf : st_key_buffer_t) (delta : Int) : st_key_buffer_t :=
  if resize_rejected buf delta then
    buf
  else
    let new_context_len := buf.context_len + delta
    let buf : st_key_buffer_t :=
      if new_context_len < 0 then
        { buf with context_len := 0 }
      else if new_context_len > buf.size then
        { buf with context_len := buf.size }
      else
        { buf with context_len := new_context_len }
    let new_pos := buf.cur_pos + delta
    if new_pos < 0 then
      { buf with cur_pos := new_pos + buf.size }
    else if new_pos ≥ buf.size then
      { buf with cur_pos := new_pos - buf.size }
    else
      { buf with cur_pos := new_pos }

/-! ## Public operations (keybuffer.c, lines 76-115) -/

/-- The record lookup `st_key_buffer_get`: the slot of the record at a logical
index, or `none` for the `NULL` of an index out of bounds. -/
def st_key_buffer_get (buf : st_key_buffer_t) (index : Int) : Option Nat :=
  let real_index := get_real_index buf index
  if real_index < 0 then none else some real_index.toNat

/-- The record stored in a slot of the buffer (the dereference of a pointer
returned by `st_key_buffer_get`). -/
def slot_entry (buf : st_key_buffer_t) (slot : Nat) : st_key_action_t :=
  buf.data.getD slot ⟨0, 0⟩

/-- The keycode lookup `st_key_buffer_get_keycode`: `KC_NO` if the index is out
of bounds. -/
def st_key_buffer_get_keycode (buf : st_key_buffer_t) (index : Int) : Nat :=
  match st_key_buffer_get buf index with
  | some keyaction => (slot_entry buf keyaction).keypressed
  | none => KC_NO

/-- The keycode `st_key_buffer_push` stores for its `uint16_t` argument (lines
99-103): alphabetic keycodes with the shift flag are stored without it. -/
def stored_keycode (keycode : Nat) : Nat :=
  let keycode := keycode % 2 ^ 16
  let shifted : Bool := (keycode &&& QK_LSFT) != 0
  let lowkey := (keycode &&& ST_DEFAULT_KEY_ACTION) % 2 ^ 8
  if shifted && IS_ALPHA_KEYCODE lowkey then lowkey else keycode

/-- The push `st_key_buffer_push`: advance window and cursor by one, then fill
the record at the new cursor. -/
def st_key_buffer_push (buf : st_key_buffer_t) (keycode : Nat) : st_key_buffer_t :=
  let keycode := stored_keycode keycode
  let buf := resize_context buf 1
  let slot := buf.cur_pos.toNat
  let buf : st_key_buffer_t :=
    { buf with data := buf.data.set slot ⟨keycode, (slot_entry buf slot).action_taken⟩ }
  { buf with data := buf.data.set slot ⟨(slot_entry buf slot).keypressed, 0xffff⟩ }

/-- The reset `st_key_buffer_reset`: empty the window, then push a space. -/
def st_key_buffer_reset (buf : st_key_buffer_t) : st_key_buffer_t :=
  st_key_buffer_push { buf with context_len := 0 } KC_SPC

/-- The pop `st_key_buffer_pop`: shrink the window by `num`, a `uint8_t`. -/
def st_key_buffer_pop (buf : st_key_buffer_t) (num : Nat) : st_key_buffer_t :=
  resize_context buf (-((num % 2 ^ 8 : Nat) : Int))

/-- The buffer after pushing the keycodes of a list, first element first. -/
def push_all (buf : st_key_buffer_t) (keycodes : List Nat) : st_key_buffer_t :=
  keycodes.foldl st_key_buffer_push buf

/-- The record a logical index refers to: the lookup followed by the
dereference of the returned pointer; `none` when the lookup fails. -/
def entry_at (buf : st_key_buffer_t) (index : Int) : Option st_key_action_t :=
  (st_key_buffer_get buf index).map (slot_entry buf)

/-- The buffer after `m` successive calls `resize_context(buf, delta)`. -/
def resize_times (buf : st_key_buffer_t) (delta : Int) : Nat → st_key_buffer_t
  | 0 => buf
  | m + 1 => resize_context (resize_times buf delta m) delta

/-- The buffer after `m` successive calls `st_key_buffer_pop(buf, num)`. -/
def pop_times (buf : st_key_buffer_t) (num : Nat) : Nat → st_key_buffer_t
  | 0 => buf
  | m + 1 => st_key_buffer_pop (pop_times buf num m) num

/-! ## Sample buffers -/

/-- A buffer of capacity 4 holding three records, the newest in slot 1: the
window has wrapped around the end of the storage. -/
def sample_wrapped : st_key_buffer_t :=
  { data := [⟨5, 0xffff⟩, ⟨6, 0xffff⟩, ⟨0, 0⟩, ⟨4, 0xffff⟩], size := 4, context_len := 3,
    cur_pos := 1 }

/-- An empty buffer of capacity 8. -/
def sample_empty8 : st_key_buffer_t :=
  { data := List.replicate 8 ⟨0, 0⟩, size := 8, context_len := 0, cur_pos := 0 }

/-! ## Index translation -/

/-- Inside the window a forward index is translated by the two branches of
lines 27-31. -/
theorem get_real_index_window (buf : st_key_buffer_t) (i : Int)
    (h0 : 0 ≤ i) (hi : i < buf.context_len) :
    get_real_index buf i =
      if buf.cur_pos - i < 0 then buf.cur_pos - i + buf.size else buf.cur_pos - i := by
  unfold get_real_index
  simp only []
  split_ifs <;> omega

/-- A negative index is the forward index shifted by the window length. -/
theorem get_real_index_neg (buf : st_key_buffer_t) (i : Int) (hi : i < 0) :
    get_real_index buf i =
      if 0 ≤ i + buf.context_len then get_real_index buf (i + buf.context_len) else -1 := by
  unfold get_real_index
  simp only []
  split_ifs <;> omega

/-- The lookup in terms of the translation: a slot inside the window. -/
theorem st_key_buffer_get_window (buf : st_key_buffer_t) (i : Int) (h : Valid buf)
    (h0 : 0 ≤ i) (hi : i < buf.context_len) :
    st_key_buffer_get buf i = some (get_real_index buf i).toNat ∧
      0 ≤ get_real_index buf i ∧ get_real_index buf i < buf.size := by
  unfold Valid at h
  unfold st_key_buffer_get
  rw [get_real_index_window buf i h0 hi]
  simp only []
  split_ifs <;> simp <;> omega

/-- The newest record sits at the cursor: index 0 of a non-empty window. -/
theorem get_real_index_zero (buf : st_key_buffer_t) (h : Valid buf)
    (hpos : 0 < buf.context_len) : get_real_index buf 0 = buf.cur_pos := by
  unfold Valid at h
  rw [get_real_index_window buf 0 (le_refl 0) hpos]
  split_ifs <;> omega

/-- The translation either fails on an index outside the window or gives a
slot of the storage for an index inside it. -/
theorem get_real_index_cases (buf : st_key_buffer_t) (i : Int) (h : Valid buf) :
    (get_real_index buf i = -1 ∧ ¬ (-buf.context_len ≤ i ∧ i < buf.context_len)) ∨
    (0 ≤ get_real_index buf i ∧ get_real_index buf i < buf.size ∧
      (-buf.context_len ≤ i ∧ i < buf.context_len)) := by
  unfold Valid at h
  unfold get_real_index
  simp only []
  split_ifs <;> omega

/-- The lookup fails on every index outside the window. -/
theorem st_key_buffer_get_outside (buf : st_key_buffer_t) (i : Int) (h : Valid buf)
    (hout : ¬ (-buf.context_len ≤ i ∧ i < buf.context_len)) :
    st_key_buffer_get buf i = none ∧ st_key_buffer_get_keycode buf i = KC_NO := by
  have hnone : st_key_buffer_get buf i = none := by
    unfold st_key_buffer_get
    rcases get_real_index_cases buf i h with ⟨e, _⟩ | ⟨_, _, hin⟩
    · rw [e]; rfl
    · exact absurd hin hout
  refine ⟨hnone, ?_⟩
  unfold st_key_buffer_get_keycode
  rw [hnone]

/-- A reverse index inside the window is looked up as the forward index it
is shifted to. -/
theorem st_key_buffer_get_neg (buf : st_key_buffer_t) (i : Int) (hi : i < 0)
    (hlo : 0 ≤ i + buf.context_len) :
    st_key_buffer_get buf i = st_key_buffer_get buf (i + buf.context_len) ∧
    st_key_buffer_get_keycode buf i = st_key_buffer_get_keycode buf (i + buf.context_len) := by
  have hg : st_key_buffer_get buf i = st_key_buffer_get buf (i + buf.context_len) := by
    unfold st_key_buffer_get
    rw [get_real_index_neg buf i hi, if_pos hlo]
  refine ⟨hg, ?_⟩
  unfold st_key_buffer_get_keycode
  rw [hg]

/-- C2: on a valid buffer with window length L the lookup st_key_buffer_get
is NULL, and get_real_index is -1, exactly for the indices outside [-L, L);
every index inside resolves to a slot in [0, size); with L = 0 every index
is rejected. -/
theorem get_not_found_iff (buf : st_key_buffer_t) (i : Int) (h : Valid buf) :
    (st_key_buffer_get buf i = none ↔ ¬ (-buf.context_len ≤ i ∧ i < buf.context_len)) ∧
    (get_real_index buf i = -1 ↔ ¬ (-buf.context_len ≤ i ∧ i < buf.context_len)) ∧
    (-buf.context_len ≤ i ∧ i < buf.context_len →
      ∃ slot : Nat, st_key_buffer_get buf i = some slot ∧ (slot : Int) < buf.size ∧
        get_real_index buf i = slot) ∧
    (buf.context_len = 0 → st_key_buffer_get buf i = none) := by
  have key := get_real_index_cases buf i h
  unfold Valid at h
  unfold st_key_buffer_get
  simp only []
  rcases key with ⟨e, hout⟩ | ⟨hlo, hhi, hin⟩
  · rw [e]
    refine ⟨by simp [hout], by simp [hout], fun hin => absurd hin hout, fun _ => by simp⟩
  · have hneg : ¬ get_real_index buf i < 0 := by omega
    rw [if_neg hneg]
    refine ⟨by simp [hin], ?_, fun _ => ⟨(get_real_index buf i).toNat, rfl, by omega, by omega⟩,
      fun hz => by omega⟩
    constructor
    · intro e; omega
    · intro hout; exact absurd hin hout

/-- C2, at index -3 of a wrapped buffer of capacity 4 with window length 3. -/
theorem get_not_found_iff_witness :
    Valid sample_wrapped ∧
    ∃ slot : Nat, st_key_buffer_get sample_wrapped (-3) = some slot ∧
      (slot : Int) < sample_wrapped.size ∧ get_real_index sample_wrapped (-3) = slot :=
  ⟨by decide, (get_not_found_iff sample_wrapped (-3) (by decide)).2.2.1 (by decide)⟩

/-- C3: on a valid buffer a forward index i inside the window is translated
to (cur_pos - i) mod size, that is cur_pos - i when i <= cur_pos and
cur_pos - i + size otherwise; the slot lies in [0, size), and index 0 is
cur_pos whenever the window is not empty. -/
theorem get_real_index_forward (buf : st_key_buffer_t) (i : Int) (h : Valid buf)
    (h0 : 0 ≤ i) (hi : i < buf.context_len) :
    get_real_index buf i = (buf.cur_pos - i) % buf.size ∧
    (i ≤ buf.cur_pos → get_real_index buf i = buf.cur_pos - i) ∧
    (buf.cur_pos < i → get_real_index buf i = buf.cur_pos - i + buf.size) ∧
    (0 ≤ get_real_index buf i ∧ get_real_index buf i < buf.size) ∧
    get_real_index buf 0 = buf.cur_pos := by
  have hz : get_real_index buf 0 = buf.cur_pos := get_real_index_zero buf h (by omega)
  unfold Valid at h
  rw [get_real_index_window buf i h0 hi]
  refine ⟨?_, ?_, ?_, ?_, hz⟩
  · split_ifs with hneg
    · rw [← Int.add_mul_emod_self_left (buf.cur_pos - i) buf.size 1, mul_one]
      exact (Int.emod_eq_of_lt (by omega) (by omega)).symm
    · exact (Int.emod_eq_of_lt (by omega) (by omega)).symm
  · intro hle; split_ifs <;> omega
  · intro hlt; split_ifs <;> omega
  · split_ifs <;> omega

/-- C3, at index 2 of a wrapped buffer: cursor 1, capacity 4, slot 3. -/
theorem get_real_index_forward_witness :
    Valid sample_wrapped ∧ (0 : Int) ≤ 2 ∧ 2 < sample_wrapped.context_len ∧
    get_real_index sample_wrapped 2 = (sample_wrapped.cur_pos - 2) % sample_wrapped.size :=
  ⟨by decide, by decide, by decide,
    (get_real_index_forward sample_wrapped 2 (by decide) (by decide) (by decide)).1⟩

/-- C4: sign symmetry.  On a valid buffer with window length L >= 1, for
0 <= j < L the indices j and j - L are translated by get_real_index to the
same physical slot of the storage, and st_key_buffer_get returns the same
record for both. -/
theorem sign_symmetry (buf : st_key_buffer_t) (j : Int) (h : Valid buf)
    (_hL : 1 ≤ buf.context_len) (h0 : 0 ≤ j) (hj : j < buf.context_len) :
    get_real_index buf j = get_real_index buf (j - buf.context_len) ∧
    st_key_buffer_get buf j = st_key_buffer_get buf (j - buf.context_len) ∧
    ∃ slot : Nat, (slot : Int) < buf.size ∧ get_real_index buf j = slot ∧
      st_key_buffer_get buf j = some slot ∧
      st_key_buffer_get buf (j - buf.context_len) = some slot := by
  have e : get_real_index buf (j - buf.context_len) = get_real_index buf j := by
    rw [get_real_index_neg buf (j - buf.context_len) (by omega)]
    have : j - buf.context_len + buf.context_len = j := by omega
    rw [this, if_pos h0]
  have e2 : st_key_buffer_get buf (j - buf.context_len) = st_key_buffer_get buf j := by
    unfold st_key_buffer_get
    rw [e]
  obtain ⟨hg, hlo, hhi⟩ := st_key_buffer_get_window buf j h h0 hj
  exact ⟨e.symm, e2.symm, (get_real_index buf j).toNat, by omega, by omega, hg, by rw [e2, hg]⟩

/-- C4, at index 1 of a wrapped buffer with window length 3: index -2. -/
theorem sign_symmetry_witness :
    Valid sample_wrapped ∧ get_real_index sample_wrapped 1 = get_real_index sample_wrapped (1 - 3) :=
  ⟨by decide, (sign_symmetry sample_wrapped 1 (by decide) (by decide) (by decide) (by decide)).1⟩

/-! ## Window bookkeeping -/

/-- An accepted resize: the fields after the call, branch by branch. -/
theorem resize_context_accepted (buf : st_key_buffer_t) (delta : Int)
    (hlo : -buf.size ≤ delta) (hhi : delta ≤ buf.size) :
    (resize_context buf delta).data = buf.data ∧
    (resize_context buf delta).size = buf.size ∧
    (resize_context buf delta).context_len =
      (if buf.context_len + delta < 0 then 0
        else if buf.context_len + delta > buf.size then buf.size
        else buf.context_len + delta) ∧
    (resize_context buf delta).cur_pos =
      (if buf.cur_pos + delta < 0 then buf.cur_pos + delta + buf.size
        else if buf.cur_pos + delta ≥ buf.size then buf.cur_pos + delta - buf.size
        else buf.cur_pos + delta) := by
  have hrej : resize_rejected buf delta = false := by
    unfold resize_rejected
    simp only [decide_eq_false_iff_not]
    omega
  unfold resize_context
  rw [hrej]
  simp only [Bool.false_eq_true, if_false]
  refine ⟨?_, ?_, ?_, ?_⟩ <;> split_ifs <;> simp_all

/-- A rejected resize changes nothing. -/
theorem resize_context_rejected (buf : st_key_buffer_t) (delta : Int)
    (h : resize_rejected buf delta = true) : resize_context buf delta = buf := by
  unfold resize_context
  rw [if_pos h]

/-- The guard of line 36, as a proposition. -/
theorem resize_rejected_eq_true (buf : st_key_buffer_t) (delta : Int) :
    resize_rejected buf delta = true ↔ (delta < -buf.size ∨ delta > buf.size) := by
  unfold resize_rejected
  simp only [decide_eq_true_eq]

/-- Every resize keeps the storage and the capacity. -/
theorem resize_context_frame (buf : st_key_buffer_t) (delta : Int) :
    (resize_context buf delta).data = buf.data ∧ (resize_context buf delta).size = buf.size := by
  by_cases hrej : resize_rejected buf delta = true
  · rw [resize_context_rejected buf delta hrej]
    exact ⟨rfl, rfl⟩
  · have hn := (not_congr (resize_rejected_eq_true buf delta)).mp hrej
    have hacc := resize_context_accepted buf delta (by omega) (by omega)
    exact ⟨hacc.1, hacc.2.1⟩

/-- Every resize keeps the buffer invariant. -/
theorem resize_context_valid (buf : st_key_buffer_t) (delta : Int) (h : Valid buf) :
    Valid (resize_context buf delta) := by
  by_cases hrej : resize_rejected buf delta = true
  · rw [resize_context_rejected buf delta hrej]
    exact h
  · have hn := (not_congr (resize_rejected_eq_true buf delta)).mp hrej
    obtain ⟨_, hs, hc, hp⟩ := resize_context_accepted buf delta (by omega) (by omega)
    unfold Valid at h ⊢
    rw [hs, hc, hp]
    refine ⟨h.1, ?_, ?_, ?_, ?_⟩ <;> split_ifs <;> omega

/-- The fields of the buffer after a push, in terms of the resize by one. -/
theorem st_key_buffer_push_fields (buf : st_key_buffer_t) (keycode : Nat) :
    (st_key_buffer_push buf keycode).size = buf.size ∧
    (st_key_buffer_push buf keycode).context_len = (resize_context buf 1).context_len ∧
    (st_key_buffer_push buf keycode).cur_pos = (resize_context buf 1).cur_pos ∧
    (st_key_buffer_push buf keycode).data.length = buf.data.length := by
  refine ⟨(resize_context_frame buf 1).2, rfl, rfl, ?_⟩
  unfold st_key_buffer_push
  simp only [List.length_set]
  rw [(resize_context_frame buf 1).1]

/-- A push keeps the buffer invariant. -/
theorem st_key_buffer_push_valid (buf : st_key_buffer_t) (keycode : Nat) (h : Valid buf) :
    Valid (st_key_buffer_push buf keycode) := by
  obtain ⟨hs, hc, hp, _⟩ := st_key_buffer_push_fields buf keycode
  have hv := resize_context_valid buf 1 h
  unfold Valid at hv ⊢
  rw [hs, hc, hp, ← (resize_context_frame buf 1).2]
  exact hv

/-- C6: every operation keeps the buffer invariant (size >= 1,
0 <= cur_pos < size, 0 <= context_len <= size) and the capacity size:
resize_context for every integer delta, the invalid ones included,
st_key_buffer_push for every keycode, st_key_buffer_pop for every count and
st_key_buffer_reset. -/
theorem invariant_preserved (buf : st_key_buffer_t) (h : Valid buf) (delta : Int)
    (keycode num : Nat) :
    (Valid (resize_context buf delta) ∧ (resize_context buf delta).size = buf.size) ∧
    (Valid (st_key_buffer_push buf keycode) ∧ (st_key_buffer_push buf keycode).size = buf.size) ∧
    (Valid (st_key_buffer_pop buf num) ∧ (st_key_buffer_pop buf num).size = buf.size) ∧
    (Valid (st_key_buffer_reset buf) ∧ (st_key_buffer_reset buf).size = buf.size) := by
  refine ⟨⟨resize_context_valid buf delta h, (resize_context_frame buf delta).2⟩,
    ⟨st_key_buffer_push_valid buf keycode h, (st_key_buffer_push_fields buf keycode).1⟩,
    ⟨resize_context_valid buf _ h, (resize_context_frame buf _).2⟩, ?_, ?_⟩
  · unfold st_key_buffer_reset
    apply st_key_buffer_push_valid
    unfold Valid at h ⊢
    simp only
    omega
  · unfold st_key_buffer_reset
    rw [(st_key_buffer_push_fields _ KC_SPC).1]

/-- C6, on a wrapped buffer of capacity 4 with the invalid delta 9, a shifted
keycode and a pop count above the capacity. -/
theorem invariant_preserved_witness :
    Valid sample_wrapped ∧ Valid (resize_context sample_wrapped 9) ∧
    Valid (st_key_buffer_push sample_wrapped 0x0204) ∧
    Valid (st_key_buffer_pop sample_wrapped 7) ∧ Valid (st_key_buffer_reset sample_wrapped) :=
  have w := invariant_preserved sample_wrapped (by decide) 9 0x0204 7
  ⟨by decide, w.1.1, w.2.1.1, w.2.2.1.1, w.2.2.2.1⟩

/-- C7: on a valid buffer, for -size <= delta <= size, resize_context sets
context_len to max(0, min(size, context_len + delta)): the window saturates
and does not wrap. -/
theorem resize_context_len (buf : st_key_buffer_t) (delta : Int) (h : Valid buf)
    (hlo : -buf.size ≤ delta) (hhi : delta ≤ buf.size) :
    (resize_context buf delta).context_len = max 0 (min buf.size (buf.context_len + delta)) ∧
    0 ≤ (resize_context buf delta).context_len ∧
    (resize_context buf delta).context_len ≤ buf.size := by
  unfold Valid at h
  rw [(resize_context_accepted buf delta hlo hhi).2.2.1]
  refine ⟨?_, ?_, ?_⟩ <;> split_ifs <;> omega

/-- C7, growing a window of length 3 by 4 in a buffer of capacity 4. -/
theorem resize_context_len_witness :
    Valid sample_wrapped ∧ -sample_wrapped.size ≤ 4 ∧ 4 ≤ sample_wrapped.size ∧
    (resize_context sample_wrapped 4).context_len =
      max 0 (min sample_wrapped.size (sample_wrapped.context_len + 4)) :=
  ⟨by decide, by decide, by decide,
    (resize_context_len sample_wrapped 4 (by decide) (by decide) (by decide)).1⟩

/-- C8: on a valid buffer, for -size <= delta <= size, resize_context sets
cur_pos to (cur_pos + delta) mod size with the non-negative modulus, a value
in [0, size), whether or not context_len was clamped; delta = size and
delta = -size leave cur_pos as it was. -/
theorem resize_context_cur_pos (buf : st_key_buffer_t) (delta : Int) (h : Valid buf)
    (hlo : -buf.size ≤ delta) (hhi : delta ≤ buf.size) :
    (resize_context buf delta).cur_pos = (buf.cur_pos + delta) % buf.size ∧
    (0 ≤ (resize_context buf delta).cur_pos ∧ (resize_context buf delta).cur_pos < buf.size) ∧
    (resize_context buf buf.size).cur_pos = buf.cur_pos ∧
    (resize_context buf (-buf.size)).cur_pos = buf.cur_pos := by
  unfold Valid at h
  rw [(resize_context_accepted buf delta hlo hhi).2.2.2,
    (resize_context_accepted buf buf.size (by omega) (by omega)).2.2.2,
    (resize_context_accepted buf (-buf.size) (by omega) (by omega)).2.2.2]
  refine ⟨?_, ?_, ?_, ?_⟩
  · split_ifs with h1 h2
    · rw [← Int.add_mul_emod_self_left (buf.cur_pos + delta) buf.size 1, mul_one]
      exact (Int.emod_eq_of_lt (by omega) (by omega)).symm
    · rw [← Int.add_mul_emod_self_left (buf.cur_pos + delta) buf.size (-1), mul_neg, mul_one]
      exact (Int.emod_eq_of_lt (by omega) (by omega)).symm
    · exact (Int.emod_eq_of_lt (by omega) (by omega)).symm
  · split_ifs <;> omega
  · split_ifs <;> omega
  · split_ifs <;> omega

/-- C8, moving the cursor 1 of a buffer of capacity 4 back by 3: the window of
length 3 becomes empty and the cursor wraps to slot 2. -/
theorem resize_context_cur_pos_witness :
    Valid sample_wrapped ∧ -sample_wrapped.size ≤ -3 ∧ -3 ≤ sample_wrapped.size ∧
    (resize_context sample_wrapped (-3)).cur_pos =
      (sample_wrapped.cur_pos + -3) % sample_wrapped.size :=
  ⟨by decide, by decide, by decide,
    (resize_context_cur_pos sample_wrapped (-3) (by decide) (by decide) (by decide)).1⟩

/-- C9: resize_context takes its rejecting branch exactly when |delta| > size,
that is delta < -size or delta > size; a rejected call returns the buffer as
it was (cur_pos, context_len, size and every slot of data); the deltas size
and -size are accepted. -/
theorem resize_context_rejects (buf : st_key_buffer_t) (delta : Int) :
    (resize_rejected buf delta = true ↔ |delta| > buf.size) ∧
    (resize_rejected buf delta = true ↔ (delta < -buf.size ∨ delta > buf.size)) ∧
    (resize_rejected buf delta = true → resize_context buf delta = buf) ∧
    (0 ≤ buf.size →
      resize_rejected buf buf.size = false ∧ resize_rejected buf (-buf.size) = false) := by
  refine ⟨?_, resize_rejected_eq_true buf delta, resize_context_rejected buf delta, ?_⟩
  · rw [resize_rejected_eq_true]
    show _ ↔ buf.size < |delta|
    rw [lt_abs]
    constructor
    · rintro (h | h)
      · right; omega
      · left; omega
    · rintro (h | h)
      · right; omega
      · left; omega
  · intro hs
    unfold resize_rejected
    simp only [decide_eq_false_iff_not]
    constructor <;> omega

/-- C9, on a buffer of capacity 4: the deltas 4 and -4 are accepted. -/
theorem resize_context_rejects_witness :
    (0 : Int) ≤ sample_wrapped.size ∧
    resize_rejected sample_wrapped sample_wrapped.size = false ∧
    resize_rejected sample_wrapped (-sample_wrapped.size) = false :=
  ⟨by decide, (resize_context_rejects sample_wrapped 0).2.2.2 (by decide)⟩

/-- C10 fails as stated: popping 5 records from a buffer of capacity 4 with
window length 3 is a resize by -5, which the guard of resize_context rejects,
so the window keeps its length 3 instead of dropping to max(0, 3 - 5) = 0. -/
theorem pop_above_capacity_counterexample :
    Valid sample_wrapped ∧ (5 : Nat) ≤ 255 ∧
    (st_key_buffer_pop sample_wrapped 5).context_len ≠ max 0 (sample_wrapped.context_len - 5) :=
  ⟨by decide, by decide, by decide⟩

/-- C10, amended: on a valid buffer, for a count n in 0..255 that does not
exceed size, after st_key_buffer_pop the window length is
max(0, context_len - n); for a count above size the call is rejected and the
buffer, its window length included, is unchanged. -/
theorem pop_context_len (buf : st_key_buffer_t) (n : Nat) (h : Valid buf) (hn : n ≤ 255) :
    ((n : Int) ≤ buf.size →
      (st_key_buffer_pop buf n).context_len = max 0 (buf.context_len - n)) ∧
    (buf.size < (n : Int) → st_key_buffer_pop buf n = buf) := by
  unfold Valid at h
  have hmod : n % 2 ^ 8 = n := Nat.mod_eq_of_lt (by omega)
  unfold st_key_buffer_pop
  rw [hmod]
  constructor
  · intro hle
    rw [(resize_context_accepted buf (-(n : Int)) (by omega) (by omega)).2.2.1]
    split_ifs <;> omega
  · intro hlt
    apply resize_context_rejected
    rw [resize_rejected_eq_true]
    left; omega

/-- C10 amended, popping 4 records from a window of length 3 in a buffer of
capacity 4. -/
theorem pop_context_len_witness :
    Valid sample_wrapped ∧ (4 : Nat) ≤ 255 ∧ ((4 : Nat) : Int) ≤ sample_wrapped.size ∧
    (st_key_buffer_pop sample_wrapped 4).context_len = max 0 (sample_wrapped.context_len - (4 : Nat)) :=
  ⟨by decide, by decide, by decide,
    (pop_context_len sample_wrapped 4 (by decide) (by decide)).1 (by decide)⟩

/-! ## Pushing -/

/-- The record in the slot a push has written. -/
theorem st_key_buffer_push_slot_new (buf : st_key_buffer_t) (keycode : Nat) (h : Valid buf)
    (hb : Backed buf) :
    slot_entry (st_key_buffer_push buf keycode) (st_key_buffer_push buf keycode).cur_pos.toNat =
      ⟨stored_keycode keycode, 0xffff⟩ := by
  have hv := resize_context_valid buf 1 h
  have hf := resize_context_frame buf 1
  unfold Valid at hv
  unfold Backed at hb
  have hlt : (resize_context buf 1).cur_pos.toNat < (resize_context buf 1).data.length := by
    rw [hf.1]; omega
  unfold st_key_buffer_push slot_entry
  simp [List.getD_eq_getElem?_getD, hlt]

/-- A push leaves the records of all other slots alone. -/
theorem st_key_buffer_push_slot_other (buf : st_key_buffer_t) (keycode slot : Nat)
    (hs : slot ≠ (st_key_buffer_push buf keycode).cur_pos.toNat) :
    slot_entry (st_key_buffer_push buf keycode) slot = slot_entry buf slot := by
  have hf := resize_context_frame buf 1
  have hs2 : (resize_context buf 1).cur_pos.toNat ≠ slot := fun e => hs e.symm
  unfold st_key_buffer_push slot_entry
  simp [List.getD_eq_getElem?_getD, List.getElem?_set_ne hs2, hf.1]

/-- The keycode lookup returns the key of the record the index refers to. -/
theorem st_key_buffer_get_keycode_of_entry (buf : st_key_buffer_t) (i : Int)
    (e : st_key_action_t) (h : entry_at buf i = some e) :
    st_key_buffer_get_keycode buf i = e.keypressed := by
  unfold entry_at at h
  unfold st_key_buffer_get_keycode
  cases hg : st_key_buffer_get buf i with
  | none => rw [hg] at h; simp at h
  | some slot =>
    rw [hg] at h
    simp only [Option.map_some', Option.some.injEq] at h
    simp only [h]

/-- Inside the window the record of a forward index is that of the slot
computed by get_real_index. -/
theorem entry_at_window (buf : st_key_buffer_t) (i : Int) (h : Valid buf)
    (h0 : 0 ≤ i) (hi : i < buf.context_len) :
    entry_at buf i = some (slot_entry buf (get_real_index buf i).toNat) := by
  unfold entry_at
  rw [(st_key_buffer_get_window buf i h h0 hi).1]
  rfl

/-- Window length and cursor after a push on a valid buffer. -/
theorem st_key_buffer_push_window (buf : st_key_buffer_t) (keycode : Nat) (h : Valid buf) :
    (st_key_buffer_push buf keycode).context_len = min (buf.context_len + 1) buf.size ∧
    (st_key_buffer_push buf keycode).cur_pos =
      (if buf.cur_pos + 1 ≥ buf.size then buf.cur_pos + 1 - buf.size else buf.cur_pos + 1) := by
  unfold Valid at h
  obtain ⟨_, hc, hp, _⟩ := st_key_buffer_push_fields buf keycode
  obtain ⟨_, _, hc2, hp2⟩ := resize_context_accepted buf 1 (by omega) (by omega)
  rw [hc, hp, hc2, hp2]
  constructor <;> split_ifs <;> omega

/-- A push keeps the storage as long as the capacity. -/
theorem st_key_buffer_push_backed (buf : st_key_buffer_t) (keycode : Nat) (hb : Backed buf) :
    Backed (st_key_buffer_push buf keycode) := by
  obtain ⟨hs, _, _, hl⟩ := st_key_buffer_push_fields buf keycode
  unfold Backed at hb ⊢
  rw [hl, hs]
  exact hb

/-- After a push, index 0 refers to the record just written. -/
theorem st_key_buffer_push_newest (buf : st_key_buffer_t) (keycode : Nat) (h : Valid buf)
    (hb : Backed buf) :
    entry_at (st_key_buffer_push buf keycode) 0 = some ⟨stored_keycode keycode, 0xffff⟩ := by
  have hv := st_key_buffer_push_valid buf keycode h
  obtain ⟨hc, _⟩ := st_key_buffer_push_window buf keycode h
  have hpos : 0 < (st_key_buffer_push buf keycode).context_len := by
    unfold Valid at h
    rw [hc]; omega
  rw [entry_at_window _ 0 hv (le_refl 0) hpos, get_real_index_zero _ hv hpos,
    st_key_buffer_push_slot_new buf keycode h hb]

/-- A push moves every record that stays in the window one index up. -/
theorem st_key_buffer_push_ages (buf : st_key_buffer_t) (keycode : Nat) (j : Int)
    (h : Valid buf) (h0 : 0 ≤ j) (hj : j < buf.context_len) (hs : j + 1 < buf.size) :
    entry_at (st_key_buffer_push buf keycode) (j + 1) = entry_at buf j := by
  have hv := st_key_buffer_push_valid buf keycode h
  obtain ⟨hc, hp⟩ := st_key_buffer_push_window buf keycode h
  have hsz := (st_key_buffer_push_fields buf keycode).1
  have hj1 : j + 1 < (st_key_buffer_push buf keycode).context_len := by
    rw [hc]; omega
  rw [entry_at_window _ (j + 1) hv (by omega) hj1, entry_at_window buf j h h0 hj]
  have e1 := get_real_index_window (st_key_buffer_push buf keycode) (j + 1) (by omega) hj1
  have e2 := get_real_index_window buf j h0 hj
  rw [hp, hsz] at e1
  unfold Valid at h
  have hsame : get_real_index (st_key_buffer_push buf keycode) (j + 1) = get_real_index buf j := by
    rw [e1, e2]; split_ifs <;> omega
  have hne : (get_real_index buf j).toNat ≠ (st_key_buffer_push buf keycode).cur_pos.toNat := by
    rw [e2, hp]; split_ifs <;> omega
  rw [hsame, st_key_buffer_push_slot_other buf keycode _ hne]

/-- Pushing a list that ends in `k` is a push of `k` after the rest. -/
theorem push_all_append_singleton (buf : st_key_buffer_t) (ks : List Nat) (k : Nat) :
    push_all buf (ks ++ [k]) = st_key_buffer_push (push_all buf ks) k := by
  unfold push_all
  rw [List.foldl_append]
  rfl

/-- The buffer after a run of pushes: the invariant, the window length and
the records of the window, newest first. -/
theorem push_all_entries (buf : st_key_buffer_t) (ks : List Nat) (h : Valid buf)
    (hb : Backed buf) :
    Valid (push_all buf ks) ∧ Backed (push_all buf ks) ∧ (push_all buf ks).size = buf.size ∧
    (push_all buf ks).context_len = min (buf.context_len + ks.length) buf.size ∧
    ∀ (j k : Nat), ks.reverse[j]? = some k → (j : Int) < buf.size →
      entry_at (push_all buf ks) j = some ⟨stored_keycode k, 0xffff⟩ := by
  induction ks using List.reverseRecOn with
  | nil =>
    unfold Valid at h
    refine ⟨h, hb, rfl, ?_, ?_⟩
    · show buf.context_len = _
      simp only [List.length_nil, Nat.cast_zero, add_zero]
      omega
    · intro j k hk
      simp at hk
  | append_singleton ks k ih =>
    obtain ⟨ihv, ihb, ihs, ihc, ihe⟩ := ih
    rw [push_all_append_singleton]
    obtain ⟨hc, _⟩ := st_key_buffer_push_window (push_all buf ks) k ihv
    have hsz := (st_key_buffer_push_fields (push_all buf ks) k).1
    unfold Valid at h
    refine ⟨st_key_buffer_push_valid _ k ihv, st_key_buffer_push_backed _ k ihb,
      by rw [hsz, ihs], ?_, ?_⟩
    · rw [hc, ihc, ihs]
      simp only [List.length_append, List.length_singleton, Nat.cast_add, Nat.cast_one]
      omega
    · intro j k2 hk hjs
      rw [List.reverse_append] at hk
      cases j with
      | zero =>
        simp only [List.reverse_singleton, List.singleton_append, List.getElem?_cons_zero,
          Option.some.injEq] at hk
        rw [← hk]
        exact st_key_buffer_push_newest _ k ihv ihb
      | succ j =>
        simp only [List.reverse_singleton, List.singleton_append, List.getElem?_cons_succ] at hk
        have hjn : j < ks.length := by
          have := (List.getElem?_eq_some_iff.mp hk).1
          simpa using this
        have hj1 : ((j + 1 : Nat) : Int) = (j : Int) + 1 := by push_cast; rfl
        rw [hj1] at hjs ⊢
        rw [st_key_buffer_push_ages _ k j ihv (by omega) (by rw [ihc]; omega) (by rw [ihs]; omega)]
        exact ihe j k2 hk (by omega)

/-- A keycode of 16 bits without the shift flag is stored as it is. -/
theorem stored_keycode_unshifted (k : Nat) (hk : k < 2 ^ 16) (hs : k &&& QK_LSFT = 0) :
    stored_keycode k = k := by
  have hm : k % 2 ^ 16 = k := Nat.mod_eq_of_lt hk
  unfold stored_keycode
  simp only [hm, hs]
  simp

/-- The stored keycode of a 16-bit keycode, by its shift flag and low byte. -/
theorem stored_keycode_cases (k : Nat) (hk : k < 2 ^ 16) :
    stored_keycode k =
      if k &&& QK_LSFT ≠ 0 ∧ KC_A ≤ k &&& 0xFF ∧ k &&& 0xFF ≤ KC_Z then k &&& 0xFF else k := by
  have hm : k % 2 ^ 16 = k := Nat.mod_eq_of_lt hk
  have h16 : k &&& ST_DEFAULT_KEY_ACTION = k := by
    have := Nat.and_pow_two_sub_one_eq_mod k 16
    rw [hm] at this
    exact this
  have h8 : k &&& 0xFF = k % 2 ^ 8 := Nat.and_pow_two_sub_one_eq_mod k 8
  unfold stored_keycode IS_ALPHA_KEYCODE
  simp only [hm, h16, h8]
  by_cases hs : k &&& QK_LSFT = 0 <;> simp [hs]

/-- The record at a forward index after a run of pushes, with the pushed list
indexed from its start. -/
theorem push_all_entry (buf : st_key_buffer_t) (ks : List Nat) (h : Valid buf)
    (hb : Backed buf) (j : Nat) (hj : j < ks.length) (hs : (j : Int) < buf.size) :
    entry_at (push_all buf ks) j = some ⟨stored_keycode ks[ks.length - 1 - j], 0xffff⟩ := by
  apply (push_all_entries buf ks h hb).2.2.2.2 j _ _ hs
  rw [List.getElem?_reverse hj, List.getElem?_eq_getElem]

/-- C1: after pushing the 16-bit keycodes k_1 .. k_n (n >= 1) onto a valid
buffer whose storage has size slots, for every j < min(n, size) the lookup
st_key_buffer_get_keycode at index j returns the stored form of k = k_(n-j),
which is the low byte k & 0xFF when k has the shift flag QK_LSFT and its low
byte lies in KC_A .. KC_Z, and k itself otherwise, and the record there has
action_taken 0xFFFF.  For n >= size moreover context_len = size, index 0 is
the last keycode pushed, index size - 1 is the (n-size+1)-th keycode pushed
(position n - 1 - (size - 1) = n - size of the list, counted from 0), and
every index >= size is not found. -/
theorem push_all_get (buf : st_key_buffer_t) (ks : List Nat) (h : Valid buf)
    (hb : Backed buf) (hn : 1 ≤ ks.length) (hk : ∀ k ∈ ks, k < 2 ^ 16) :
    (∀ (j : Nat) (hj : j < ks.length), (j : Int) < buf.size →
      st_key_buffer_get_keycode (push_all buf ks) j =
        (if ks[ks.length - 1 - j] &&& QK_LSFT ≠ 0 ∧ KC_A ≤ ks[ks.length - 1 - j] &&& 0xFF ∧
            ks[ks.length - 1 - j] &&& 0xFF ≤ KC_Z
          then ks[ks.length - 1 - j] &&& 0xFF else ks[ks.length - 1 - j]) ∧
      entry_at (push_all buf ks) j =
        some ⟨if ks[ks.length - 1 - j] &&& QK_LSFT ≠ 0 ∧ KC_A ≤ ks[ks.length - 1 - j] &&& 0xFF ∧
            ks[ks.length - 1 - j] &&& 0xFF ≤ KC_Z
          then ks[ks.length - 1 - j] &&& 0xFF else ks[ks.length - 1 - j], 0xffff⟩) ∧
    (buf.size ≤ ks.length →
      (push_all buf ks).context_len = buf.size ∧
      entry_at (push_all buf ks) 0 =
        some ⟨if ks[ks.length - 1] &&& QK_LSFT ≠ 0 ∧ KC_A ≤ ks[ks.length - 1] &&& 0xFF ∧
            ks[ks.length - 1] &&& 0xFF ≤ KC_Z
          then ks[ks.length - 1] &&& 0xFF else ks[ks.length - 1], 0xffff⟩ ∧
      entry_at (push_all buf ks) (buf.size - 1) =
        some ⟨if ks[ks.length - 1 - (buf.size.toNat - 1)] &&& QK_LSFT ≠ 0 ∧
            KC_A ≤ ks[ks.length - 1 - (buf.size.toNat - 1)] &&& 0xFF ∧
            ks[ks.length - 1 - (buf.size.toNat - 1)] &&& 0xFF ≤ KC_Z
          then ks[ks.length - 1 - (buf.size.toNat - 1)] &&& 0xFF
          else ks[ks.length - 1 - (buf.size.toNat - 1)], 0xffff⟩ ∧
      ∀ i : Int, buf.size ≤ i →
        st_key_buffer_get (push_all buf ks) i = none ∧
        st_key_buffer_get_keycode (push_all buf ks) i = KC_NO) := by
  obtain ⟨hv, _, hsz, hc, _⟩ := push_all_entries buf ks h hb
  have hvalid := h
  unfold Valid at h
  have hentry : ∀ (j : Nat) (hj : j < ks.length), (j : Int) < buf.size →
      entry_at (push_all buf ks) j =
        some ⟨if ks[ks.length - 1 - j] &&& QK_LSFT ≠ 0 ∧ KC_A ≤ ks[ks.length - 1 - j] &&& 0xFF ∧
            ks[ks.length - 1 - j] &&& 0xFF ≤ KC_Z
          then ks[ks.length - 1 - j] &&& 0xFF else ks[ks.length - 1 - j], 0xffff⟩ := by
    intro j hj hs
    have he := push_all_entry buf ks hvalid hb j hj hs
    rw [stored_keycode_cases _ (hk _ (List.getElem_mem _))] at he
    exact he
  constructor
  · intro j hj hs
    exact ⟨st_key_buffer_get_keycode_of_entry _ _ _ (hentry j hj hs), hentry j hj hs⟩
  · intro hfull
    have hlen : (push_all buf ks).context_len = buf.size := by rw [hc]; omega
    refine ⟨hlen, ?_, ?_, ?_⟩
    · exact hentry 0 (by omega) (by simp only [Nat.cast_zero]; omega)
    · have he := hentry (buf.size.toNat - 1) (by omega) (by omega)
      have hcast : ((buf.size.toNat - 1 : Nat) : Int) = buf.size - 1 := by omega
      rw [← hcast]
      exact he
    · intro i hi
      exact st_key_buffer_get_outside _ i hv (by rw [hlen]; omega)

/-- C1, with five keycodes, two of them carrying the shift flag, pushed onto a
wrapped buffer of capacity 4: the window is full, index 0 holds the last
keycode 8, index 1 the non-alphabetic shifted keycode 0x021E as it was
pushed, and index 3, the oldest record retained, holds the alphabetic
shifted keycode 0x0204 folded to its low byte 0x04. -/
theorem push_all_get_witness :
    Valid sample_wrapped ∧ Backed sample_wrapped ∧
    (push_all sample_wrapped [5, 0x0204, 6, 0x021E, 8]).context_len = sample_wrapped.size ∧
    entry_at (push_all sample_wrapped [5, 0x0204, 6, 0x021E, 8]) 0 = some ⟨8, 0xffff⟩ ∧
    st_key_buffer_get_keycode (push_all sample_wrapped [5, 0x0204, 6, 0x021E, 8]) 1 = 0x021E ∧
    st_key_buffer_get_keycode (push_all sample_wrapped [5, 0x0204, 6, 0x021E, 8]) 3 = 0x04 ∧
    entry_at (push_all sample_wrapped [5, 0x0204, 6, 0x021E, 8]) 3 = some ⟨0x04, 0xffff⟩ :=
  have w := push_all_get sample_wrapped [5, 0x0204, 6, 0x021E, 8] (by decide) (by decide)
    (by decide) (by decide)
  ⟨by decide, by decide, (w.2 (by decide)).1, (w.2 (by decide)).2.1.trans (by decide),
    (w.1 1 (by decide) (by decide)).1.trans (by decide),
    (w.1 3 (by decide) (by decide)).1.trans (by decide),
    (w.2 (by decide)).2.2.1.trans (by decide)⟩

/-- C5: reverse indexing starts at the oldest record.  After pushing n
unshifted 16-bit keycodes k_1 .. k_n, 1 <= n <= size, onto a valid buffer with
an empty window, st_key_buffer_get_keycode at index -i returns k_i for every
i in 1..n, and the indices n and -n-1 are not found. -/
theorem reverse_index_oldest_first (buf : st_key_buffer_t) (ks : List Nat) (h : Valid buf)
    (hb : Backed buf) (he : buf.context_len = 0) (_hn : 1 ≤ ks.length)
    (hsz : (ks.length : Int) ≤ buf.size)
    (hk : ∀ k ∈ ks, k < 2 ^ 16 ∧ k &&& QK_LSFT = 0) :
    (∀ (i : Nat) (h1 : 1 ≤ i) (h2 : i ≤ ks.length),
      st_key_buffer_get_keycode (push_all buf ks) (-(i : Int)) = ks[i - 1]) ∧
    (st_key_buffer_get (push_all buf ks) ks.length = none ∧
      st_key_buffer_get_keycode (push_all buf ks) ks.length = KC_NO) ∧
    (st_key_buffer_get (push_all buf ks) (-(ks.length : Int) - 1) = none ∧
      st_key_buffer_get_keycode (push_all buf ks) (-(ks.length : Int) - 1) = KC_NO) := by
  obtain ⟨hv, _, _, hc, _⟩ := push_all_entries buf ks h hb
  have hlen : (push_all buf ks).context_len = ks.length := by rw [hc, he]; omega
  refine ⟨?_, st_key_buffer_get_outside _ _ hv (by rw [hlen]; omega),
    st_key_buffer_get_outside _ _ hv (by rw [hlen]; omega)⟩
  intro i h1 h2
  rw [(st_key_buffer_get_neg _ (-(i : Int)) (by omega) (by rw [hlen]; omega)).2, hlen]
  have hcast : -(i : Int) + (ks.length : Int) = ((ks.length - i : Nat) : Int) := by omega
  rw [hcast]
  have hent := push_all_entry buf ks h hb (ks.length - i) (by omega) (by omega)
  rw [st_key_buffer_get_keycode_of_entry _ _ _ hent]
  have hidx : ks.length - 1 - (ks.length - i) = i - 1 := by omega
  simp only [hidx]
  obtain ⟨hlt, hs⟩ := hk ks[i - 1] (List.getElem_mem _)
  exact stored_keycode_unshifted _ hlt hs

/-- C5, the scenario of the source comment: capacity 8, push a, b, c (keycodes
4, 5, 6); indices 0, 1, 2 give c, b, a, indices -1, -2, -3 give a, b, c, and
indices 3 and -4 are not found. -/
theorem reverse_index_oldest_first_witness :
    (Valid sample_empty8 ∧ Backed sample_empty8 ∧ sample_empty8.context_len = 0) ∧
    (st_key_buffer_get_keycode (push_all sample_empty8 [4, 5, 6]) 0 = 6 ∧
      st_key_buffer_get_keycode (push_all sample_empty8 [4, 5, 6]) 1 = 5 ∧
      st_key_buffer_get_keycode (push_all sample_empty8 [4, 5, 6]) 2 = 4) ∧
    (st_key_buffer_get_keycode (push_all sample_empty8 [4, 5, 6]) (-1) = 4 ∧
      st_key_buffer_get_keycode (push_all sample_empty8 [4, 5, 6]) (-2) = 5 ∧
      st_key_buffer_get_keycode (push_all sample_empty8 [4, 5, 6]) (-3) = 6) ∧
    st_key_buffer_get (push_all sample_empty8 [4, 5, 6]) 3 = none ∧
    st_key_buffer_get (push_all sample_empty8 [4, 5, 6]) (-4) = none :=
  have w := reverse_index_oldest_first sample_empty8 [4, 5, 6] (by decide) (by decide) rfl
    (by decide) (by decide) (by decide)
  ⟨⟨by decide, by decide, rfl⟩, ⟨by decide, by decide, by decide⟩,
    ⟨w.1 1 (by decide) (by decide), w.1 2 (by decide) (by decide),
      w.1 3 (by decide) (by decide)⟩, w.2.1.1, w.2.2.1⟩

/-! ## Case folding, push, reset and keycode lookup -/

/-- C11: case folding on push.  For a 16-bit keycode pushed onto a valid
buffer whose storage has size slots, the keypressed field of the new slot
(the slot at the new cur_pos, logical index 0) is the low byte keycode & 0xFF
when the shift flag QK_LSFT is set and the low byte lies in KC_A .. KC_Z, and
the keycode unmodified when the shift flag is set with a low byte outside
that range or when the shift flag is not set. -/
theorem push_case_folding (buf : st_key_buffer_t) (k : Nat) (h : Valid buf) (hb : Backed buf)
    (hk : k < 2 ^ 16) :
    (slot_entry (st_key_buffer_push buf k) (st_key_buffer_push buf k).cur_pos.toNat).keypressed =
      st_key_buffer_get_keycode (st_key_buffer_push buf k) 0 ∧
    (k &&& QK_LSFT ≠ 0 → KC_A ≤ k &&& 0xFF → k &&& 0xFF ≤ KC_Z →
      st_key_buffer_get_keycode (st_key_buffer_push buf k) 0 = k &&& 0xFF) ∧
    (k &&& QK_LSFT ≠ 0 → (k &&& 0xFF < KC_A ∨ KC_Z < k &&& 0xFF) →
      st_key_buffer_get_keycode (st_key_buffer_push buf k) 0 = k) ∧
    (k &&& QK_LSFT = 0 → st_key_buffer_get_keycode (st_key_buffer_push buf k) 0 = k) := by
  have hget : st_key_buffer_get_keycode (st_key_buffer_push buf k) 0 = stored_keycode k :=
    st_key_buffer_get_keycode_of_entry _ _ _ (st_key_buffer_push_newest buf k h hb)
  rw [hget, st_key_buffer_push_slot_new buf k h hb, stored_keycode_cases k hk]
  refine ⟨rfl, ?_, ?_, ?_⟩
  · intro hs ha hz
    rw [if_pos ⟨hs, ha, hz⟩]
  · intro hs hout
    rw [if_neg (by intro hc; omega)]
  · intro hs
    rw [if_neg (fun hc => hc.1 hs)]

/-- C11, pushing shifted A (0x0204) onto a wrapped buffer of capacity 4: the
record read back at index 0 holds A (0x04). -/
theorem push_case_folding_witness :
    Valid sample_wrapped ∧ Backed sample_wrapped ∧ 0x0204 < 2 ^ 16 ∧
    st_key_buffer_get_keycode (st_key_buffer_push sample_wrapped 0x0204) 0 = 0x04 :=
  ⟨by decide, by decide, by decide,
    ((push_case_folding sample_wrapped 0x0204 (by decide) (by decide) (by decide)).2.1
      (by decide) (by decide) (by decide)).trans (by decide)⟩

/-- C12: after st_key_buffer_push on a valid buffer with window length L the
window length is min(L + 1, size), cur_pos is (cur_pos + 1) mod size, the
buffer is populated (context_len >= 1), and, the storage having size slots,
st_key_buffer_get at index 0 returns the slot at the new cur_pos, which holds
the stored keycode with action_taken 0xFFFF. -/
theorem push_grows_window (buf : st_key_buffer_t) (k : Nat) (h : Valid buf) :
    (st_key_buffer_push buf k).context_len = min (buf.context_len + 1) buf.size ∧
    (st_key_buffer_push buf k).cur_pos = (buf.cur_pos + 1) % buf.size ∧
    1 ≤ (st_key_buffer_push buf k).context_len ∧
    st_key_buffer_get (st_key_buffer_push buf k) 0 =
      some (st_key_buffer_push buf k).cur_pos.toNat ∧
    (Backed buf →
      entry_at (st_key_buffer_push buf k) 0 = some ⟨stored_keycode k, 0xffff⟩) := by
  have hv := st_key_buffer_push_valid buf k h
  obtain ⟨hc, hp⟩ := st_key_buffer_push_window buf k h
  have hvalid := h
  unfold Valid at h
  have hpos : 0 < (st_key_buffer_push buf k).context_len := by rw [hc]; omega
  refine ⟨hc, ?_, by omega, ?_, fun hb => st_key_buffer_push_newest buf k hvalid hb⟩
  · rw [hp]
    split_ifs with hw
    · rw [← Int.add_mul_emod_self_left (buf.cur_pos + 1) buf.size (-1), mul_neg, mul_one]
      exact (Int.emod_eq_of_lt (by omega) (by omega)).symm
    · exact (Int.emod_eq_of_lt (by omega) (by omega)).symm
  · rw [(st_key_buffer_get_window _ 0 hv (le_refl 0) hpos).1, get_real_index_zero _ hv hpos]

/-- C12, pushing onto a wrapped buffer of capacity 4 with window length 3 and
cursor 1: the window becomes full and the cursor moves to slot 2. -/
theorem push_grows_window_witness :
    Valid sample_wrapped ∧ (st_key_buffer_push sample_wrapped 7).context_len = 4 ∧
    (st_key_buffer_push sample_wrapped 7).cur_pos = 2 ∧
    entry_at (st_key_buffer_push sample_wrapped 7) 0 = some ⟨7, 0xffff⟩ :=
  have w := push_grows_window sample_wrapped 7 (by decide)
  ⟨by decide, w.1.trans (by decide), w.2.1.trans (by decide),
    (w.2.2.2.2 (by decide)).trans (by decide)⟩

/-- C13: reset baseline.  After st_key_buffer_reset on a valid buffer whose
storage has size slots, whatever its window, cursor and contents were, the
window length is exactly 1, st_key_buffer_get_keycode at index 0 is KC_SPC,
the record there has action_taken 0xFFFF, and every index other than 0 and
-1 is not found. -/
theorem reset_baseline (buf : st_key_buffer_t) (h : Valid buf) (hb : Backed buf) :
    (st_key_buffer_reset buf).context_len = 1 ∧
    st_key_buffer_get_keycode (st_key_buffer_reset buf) 0 = KC_SPC ∧
    entry_at (st_key_buffer_reset buf) 0 = some ⟨KC_SPC, 0xffff⟩ ∧
    ∀ i : Int, i ≠ 0 → i ≠ -1 →
      st_key_buffer_get (st_key_buffer_reset buf) i = none ∧
      st_key_buffer_get_keycode (st_key_buffer_reset buf) i = KC_NO := by
  have hv0 : Valid { buf with context_len := 0 } := by
    unfold Valid at h ⊢
    simp only
    omega
  have hb0 : Backed { buf with context_len := 0 } := hb
  have hv : Valid (st_key_buffer_reset buf) := st_key_buffer_push_valid _ KC_SPC hv0
  have hc : (st_key_buffer_reset buf).context_len = 1 := by
    unfold st_key_buffer_reset
    rw [(st_key_buffer_push_window _ KC_SPC hv0).1]
    unfold Valid at h
    simp only
    omega
  have he : entry_at (st_key_buffer_reset buf) 0 = some ⟨KC_SPC, 0xffff⟩ :=
    st_key_buffer_push_newest _ KC_SPC hv0 hb0
  refine ⟨hc, st_key_buffer_get_keycode_of_entry _ _ _ he, he, ?_⟩
  intro i h0 h1
  exact st_key_buffer_get_outside _ i hv (by rw [hc]; omega)

/-- C13, resetting a wrapped buffer of capacity 4 with window length 3. -/
theorem reset_baseline_witness :
    Valid sample_wrapped ∧ Backed sample_wrapped ∧
    (st_key_buffer_reset sample_wrapped).context_len = 1 ∧
    st_key_buffer_get_keycode (st_key_buffer_reset sample_wrapped) 0 = KC_SPC ∧
    st_key_buffer_get (st_key_buffer_reset sample_wrapped) 1 = none :=
  have w := reset_baseline sample_wrapped (by decide) (by decide)
  ⟨by decide, by decide, w.1, w.2.1, (w.2.2.2 1 (by decide) (by decide)).1⟩

/-- C14: on a valid buffer st_key_buffer_get_keycode returns KC_NO for every
index outside the window [-context_len, context_len), and for an index inside
it returns the keypressed field of the record in the slot st_key_buffer_get
returns, a slot of the storage. -/
theorem get_keycode_sentinel (buf : st_key_buffer_t) (i : Int) (h : Valid buf) :
    (¬ (-buf.context_len ≤ i ∧ i < buf.context_len) →
      st_key_buffer_get buf i = none ∧ st_key_buffer_get_keycode buf i = KC_NO) ∧
    (-buf.context_len ≤ i ∧ i < buf.context_len →
      ∃ slot : Nat, st_key_buffer_get buf i = some slot ∧ (slot : Int) < buf.size ∧
        st_key_buffer_get_keycode buf i = (slot_entry buf slot).keypressed ∧
        (Backed buf → buf.data[slot]? = some (slot_entry buf slot))) := by
  refine ⟨st_key_buffer_get_outside buf i h, ?_⟩
  intro hin
  rcases get_real_index_cases buf i h with ⟨_, hout⟩ | ⟨hlo, hhi, _⟩
  · exact absurd hin hout
  · have hg : st_key_buffer_get buf i = some (get_real_index buf i).toNat := by
      unfold st_key_buffer_get
      simp only []
      rw [if_neg (by omega)]
    refine ⟨(get_real_index buf i).toNat, hg, by omega, ?_, ?_⟩
    · unfold st_key_buffer_get_keycode
      rw [hg]
    · intro hb
      unfold Backed at hb
      have hlt : (get_real_index buf i).toNat < buf.data.length := by omega
      unfold slot_entry
      rw [List.getD_eq_getElem?_getD, List.getElem?_eq_getElem hlt]
      rfl

/-- C14, on a wrapped buffer of capacity 4 with window length 3: index -1 is
inside the window and gives the key of a slot of the storage, index 3 is
outside and gives KC_NO. -/
theorem get_keycode_sentinel_witness :
    Valid sample_wrapped ∧
    (∃ slot : Nat, st_key_buffer_get sample_wrapped (-1) = some slot ∧
      (slot : Int) < sample_wrapped.size ∧
      st_key_buffer_get_keycode sample_wrapped (-1) = (slot_entry sample_wrapped slot).keypressed ∧
      (Backed sample_wrapped → sample_wrapped.data[slot]? = some (slot_entry sample_wrapped slot))) ∧
    st_key_buffer_get_keycode sample_wrapped 3 = KC_NO :=
  ⟨by decide, (get_keycode_sentinel sample_wrapped (-1) (by decide)).2 (by decide),
    ((get_keycode_sentinel sample_wrapped 3 (by decide)).1 (by decide)).2⟩

/-! ## Repetition, frame and rewind -/

/-- The window after `m` resizes by one step up: valid, and saturated at the
capacity. -/
theorem resize_times_up (buf : st_key_buffer_t) (m : Nat) (h : Valid buf) :
    Valid (resize_times buf 1 m) ∧ (resize_times buf 1 m).size = buf.size ∧
    (resize_times buf 1 m).context_len = min (buf.context_len + m) buf.size := by
  induction m with
  | zero =>
    unfold Valid at h
    refine ⟨h, rfl, ?_⟩
    show buf.context_len = _
    simp only [Nat.cast_zero, add_zero]
    omega
  | succ m ih =>
    obtain ⟨ihv, ihs, ihc⟩ := ih
    have hv := ihv
    unfold Valid at hv h
    obtain ⟨_, hs, hc, _⟩ := resize_context_accepted (resize_times buf 1 m) 1 (by omega) (by omega)
    refine ⟨resize_context_valid _ 1 ihv, hs.trans ihs, ?_⟩
    show (resize_context (resize_times buf 1 m) 1).context_len = _
    rw [hc, ihc, ihs]
    push_cast
    split_ifs <;> omega

/-- The window after `m` resizes by one step down: valid, and floored at 0. -/
theorem resize_times_down (buf : st_key_buffer_t) (m : Nat) (h : Valid buf) :
    Valid (resize_times buf (-1) m) ∧ (resize_times buf (-1) m).size = buf.size ∧
    (resize_times buf (-1) m).context_len = max (buf.context_len - m) 0 := by
  induction m with
  | zero =>
    unfold Valid at h
    refine ⟨h, rfl, ?_⟩
    show buf.context_len = _
    simp only [Nat.cast_zero, sub_zero]
    omega
  | succ m ih =>
    obtain ⟨ihv, ihs, ihc⟩ := ih
    have hv := ihv
    unfold Valid at hv h
    obtain ⟨_, hs, hc, _⟩ :=
      resize_context_accepted (resize_times buf (-1) m) (-1) (by omega) (by omega)
    refine ⟨resize_context_valid _ (-1) ihv, hs.trans ihs, ?_⟩
    show (resize_context (resize_times buf (-1) m) (-1)).context_len = _
    rw [hc, ihc, ihs]
    push_cast
    split_ifs <;> omega

/-- A pop of one record is a resize by -1, so are `m` of them in a row. -/
theorem pop_times_one (buf : st_key_buffer_t) (m : Nat) :
    pop_times buf 1 m = resize_times buf (-1) m := by
  induction m with
  | zero => rfl
  | succ m ih =>
    show st_key_buffer_pop (pop_times buf 1 m) 1 = resize_context (resize_times buf (-1) m) (-1)
    rw [ih]
    rfl

/-- The window after a run of pushes, whatever the storage. -/
theorem push_all_window (buf : st_key_buffer_t) (ks : List Nat) (h : Valid buf) :
    Valid (push_all buf ks) ∧ (push_all buf ks).size = buf.size ∧
    (push_all buf ks).context_len = min (buf.context_len + ks.length) buf.size := by
  induction ks using List.reverseRecOn with
  | nil =>
    unfold Valid at h
    refine ⟨h, rfl, ?_⟩
    show buf.context_len = _
    simp only [List.length_nil, Nat.cast_zero, add_zero]
    omega
  | append_singleton ks k ih =>
    obtain ⟨ihv, ihs, ihc⟩ := ih
    rw [push_all_append_singleton]
    obtain ⟨hc, _⟩ := st_key_buffer_push_window (push_all buf ks) k ihv
    have hsz := (st_key_buffer_push_fields (push_all buf ks) k).1
    unfold Valid at h
    refine ⟨st_key_buffer_push_valid _ k ihv, hsz.trans ihs, ?_⟩
    rw [hc, ihc, ihs]
    simp only [List.length_append, List.length_singleton, Nat.cast_add, Nat.cast_one]
    omega

/-- C15: resize saturation under repetition.  On a valid buffer with window
length L, after m successive calls resize_context(buf, +1), and after
pushing m keycodes, context_len = min(L + m, size), so growing beyond size
leaves context_len = size; after m successive calls resize_context(buf, -1),
and after m pops of one record, context_len = max(L - m, 0), so shrinking
below 0 leaves context_len = 0. -/
theorem resize_saturation (buf : st_key_buffer_t) (m : Nat) (ks : List Nat) (h : Valid buf)
    (hks : ks.length = m) :
    (resize_times buf 1 m).context_len = min (buf.context_len + m) buf.size ∧
    (push_all buf ks).context_len = min (buf.context_len + m) buf.size ∧
    (resize_times buf (-1) m).context_len = max (buf.context_len - m) 0 ∧
    (pop_times buf 1 m).context_len = max (buf.context_len - m) 0 ∧
    (buf.size ≤ buf.context_len + m →
      (resize_times buf 1 m).context_len = buf.size ∧
      (push_all buf ks).context_len = buf.size) ∧
    (buf.context_len ≤ m →
      (resize_times buf (-1) m).context_len = 0 ∧ (pop_times buf 1 m).context_len = 0) := by
  have hup := (resize_times_up buf m h).2.2
  have hdown := (resize_times_down buf m h).2.2
  have hpush := (push_all_window buf ks h).2.2
  rw [hks] at hpush
  have hpop : (pop_times buf 1 m).context_len = max (buf.context_len - m) 0 := by
    rw [pop_times_one, hdown]
  refine ⟨hup, hpush, hdown, hpop, ?_, ?_⟩
  · intro hfull
    rw [hup, hpush]
    omega
  · intro hempty
    rw [hpop, hdown]
    omega

/-- C15, on a wrapped buffer of capacity 4 with window length 3: six steps up
leave the window at 4, six steps down leave it at 0. -/
theorem resize_saturation_witness :
    Valid sample_wrapped ∧ (resize_times sample_wrapped 1 6).context_len = 4 ∧
    (push_all sample_wrapped [4, 5, 6, 7, 8, 9]).context_len = 4 ∧
    (resize_times sample_wrapped (-1) 6).context_len = 0 ∧
    (pop_times sample_wrapped 1 6).context_len = 0 :=
  have w := resize_saturation sample_wrapped 6 [4, 5, 6, 7, 8, 9] (by decide) rfl
  ⟨by decide, w.1.trans (by decide), w.2.1.trans (by decide), w.2.2.1.trans (by decide),
    w.2.2.2.1.trans (by decide)⟩

/-- C16: st_key_buffer_pop does not erase data.  For every buffer and every
count n the storage after the pop is the storage before it, slot by slot
(keypressed and action_taken), and size is unchanged; only context_len and
cur_pos can differ. -/
theorem pop_keeps_data (buf : st_key_buffer_t) (n : Nat) :
    (st_key_buffer_pop buf n).data = buf.data ∧
    (st_key_buffer_pop buf n).size = buf.size ∧
    (∀ slot : Nat, slot_entry (st_key_buffer_pop buf n) slot = slot_entry buf slot) ∧
    st_key_buffer_pop buf n =
      { buf with context_len := (st_key_buffer_pop buf n).context_len,
                 cur_pos := (st_key_buffer_pop buf n).cur_pos } := by
  have hf : (st_key_buffer_pop buf n).data = buf.data ∧
      (st_key_buffer_pop buf n).size = buf.size := resize_context_frame buf _
  refine ⟨hf.1, hf.2, ?_, ?_⟩
  · intro slot
    unfold slot_entry
    rw [hf.1]
  · cases hp : st_key_buffer_pop buf n with
    | mk d s c p =>
      rw [hp] at hf
      simp only at hf
      simp only [st_key_buffer_t.mk.injEq, and_true]
      exact ⟨hf.1, hf.2⟩

/-- C17: a push ages every retained record by one and evicts only the oldest.
On a valid buffer with window length L, for 0 <= j < min(L, size - 1) the
record at index j + 1 after the push is the record at index j before it
(keypressed and action_taken); the push changes no slot but the one at the
new cur_pos, and when L = size that slot is the one index size - 1 referred
to before the push. -/
theorem push_ages_window (buf : st_key_buffer_t) (k : Nat) (h : Valid buf) :
    (∀ j : Int, 0 ≤ j → j < min buf.context_len (buf.size - 1) →
      entry_at (st_key_buffer_push buf k) (j + 1) = entry_at buf j ∧
      ∃ e : st_key_action_t, entry_at buf j = some e) ∧
    (∀ slot : Nat, slot ≠ (st_key_buffer_push buf k).cur_pos.toNat →
      slot_entry (st_key_buffer_push buf k) slot = slot_entry buf slot) ∧
    (buf.context_len = buf.size →
      get_real_index buf (buf.size - 1) = (st_key_buffer_push buf k).cur_pos ∧
      st_key_buffer_get buf (buf.size - 1) = some (st_key_buffer_push buf k).cur_pos.toNat) ∧
    (Backed buf →
      slot_entry (st_key_buffer_push buf k) (st_key_buffer_push buf k).cur_pos.toNat =
        ⟨stored_keycode k, 0xffff⟩) := by
  refine ⟨?_, fun slot hs => st_key_buffer_push_slot_other buf k slot hs, ?_,
    fun hb => st_key_buffer_push_slot_new buf k h hb⟩
  · intro j h0 hj
    refine ⟨st_key_buffer_push_ages buf k j h h0 (by omega) (by omega), _,
      entry_at_window buf j h h0 (by omega)⟩
  · intro hfull
    obtain ⟨_, hp⟩ := st_key_buffer_push_window buf k h
    have hvalid := h
    unfold Valid at h
    have hreal : get_real_index buf (buf.size - 1) = (st_key_buffer_push buf k).cur_pos := by
      rw [get_real_index_window buf (buf.size - 1) (by omega) (by omega), hp]
      split_ifs <;> omega
    refine ⟨hreal, ?_⟩
    rw [(st_key_buffer_get_window buf (buf.size - 1) hvalid (by omega) (by omega)).1, hreal]

/-- C17, pushing onto a wrapped buffer of capacity 4 with window length 3:
the record at index 2 before the push is at index 3 after it. -/
theorem push_ages_window_witness :
    Valid sample_wrapped ∧
    entry_at (st_key_buffer_push sample_wrapped 7) (2 + 1) = entry_at sample_wrapped 2 ∧
    entry_at sample_wrapped 2 = some ⟨4, 0xffff⟩ :=
  ⟨by decide,
    ((push_ages_window sample_wrapped 7 (by decide)).1 2 (by decide) (by decide)).1,
    by decide⟩

/-- C18: a pop discards the newest records and re-bases the index.  On a
valid buffer with window length L, for a count n (a uint8_t) with n <= L and
0 <= j < L - n, index j after st_key_buffer_pop(buf, n) is translated to the
physical slot index j + n was translated to before the pop, and the record
there is the same. -/
theorem pop_rebases_index (buf : st_key_buffer_t) (n : Nat) (j : Int) (h : Valid buf)
    (hn8 : n ≤ 255) (hn : (n : Int) ≤ buf.context_len) (h0 : 0 ≤ j)
    (hj : j < buf.context_len - n) :
    get_real_index (st_key_buffer_pop buf n) j = get_real_index buf (j + n) ∧
    st_key_buffer_get (st_key_buffer_pop buf n) j = st_key_buffer_get buf (j + n) ∧
    (∃ slot : Nat, st_key_buffer_get buf (j + n) = some slot ∧ (slot : Int) < buf.size) ∧
    entry_at (st_key_buffer_pop buf n) j = entry_at buf (j + n) := by
  have hvalid := h
  unfold Valid at h
  have hmod : n % 2 ^ 8 = n := Nat.mod_eq_of_lt (by omega)
  have hpop : st_key_buffer_pop buf n = resize_context buf (-(n : Int)) := by
    unfold st_key_buffer_pop
    rw [hmod]
  obtain ⟨hd, hs, hc, hp⟩ := resize_context_accepted buf (-(n : Int)) (by omega) (by omega)
  rw [← hpop] at hd hs hc hp
  have hc2 : (st_key_buffer_pop buf n).context_len = buf.context_len - n := by
    rw [hc]; split_ifs <;> omega
  have hreal : get_real_index (st_key_buffer_pop buf n) j = get_real_index buf (j + n) := by
    rw [get_real_index_window _ j h0 (by rw [hc2]; exact hj),
      get_real_index_window buf (j + n) (by omega) (by omega), hp, hs]
    split_ifs <;> omega
  have hget : st_key_buffer_get (st_key_buffer_pop buf n) j = st_key_buffer_get buf (j + n) := by
    unfold st_key_buffer_get
    rw [hreal]
  obtain ⟨hg, hlo, hhi⟩ := st_key_buffer_get_window buf (j + n) hvalid (by omega) (by omega)
  refine ⟨hreal, hget, ⟨_, hg, by omega⟩, ?_⟩
  unfold entry_at slot_entry
  rw [hget, hd]

/-- C18, popping one record from a wrapped buffer of capacity 4 with window
length 3: index 1 afterwards is the slot of index 2 before. -/
theorem pop_rebases_index_witness :
    Valid sample_wrapped ∧
    st_key_buffer_get (st_key_buffer_pop sample_wrapped 1) 1 =
      st_key_buffer_get sample_wrapped (1 + (1 : Nat)) ∧
    st_key_buffer_get sample_wrapped (1 + (1 : Nat)) = some 3 :=
  ⟨by decide,
    (pop_rebases_index sample_wrapped 1 1 (by decide) (by decide) (by decide) (by decide)
      (by decide)).2.1,
    by decide⟩

/-- C19: the translation is injective on the window.  On a valid buffer, for
0 <= i < j < context_len the indices i and j are translated by
get_real_index to different physical slots, and st_key_buffer_get returns
different slots for them. -/
theorem get_real_index_injective (buf : st_key_buffer_t) (i j : Int) (h : Valid buf)
    (h0 : 0 ≤ i) (hij : i < j) (hj : j < buf.context_len) :
    get_real_index buf i ≠ get_real_index buf j ∧
    st_key_buffer_get buf i ≠ st_key_buffer_get buf j := by
  obtain ⟨hgi, hilo, _⟩ := st_key_buffer_get_window buf i h h0 (by omega)
  obtain ⟨hgj, hjlo, _⟩ := st_key_buffer_get_window buf j h (by omega) hj
  have ei := get_real_index_window buf i h0 (by omega)
  have ej := get_real_index_window buf j (by omega) hj
  unfold Valid at h
  have hne : get_real_index buf i ≠ get_real_index buf j := by
    rw [ei, ej]
    split_ifs <;> omega
  refine ⟨hne, ?_⟩
  rw [hgi, hgj]
  intro he
  have := Option.some.inj he
  omega

/-- C19, at the indices 0 and 2 of a wrapped buffer: slots 1 and 3. -/
theorem get_real_index_injective_witness :
    Valid sample_wrapped ∧ get_real_index sample_wrapped 0 ≠ get_real_index sample_wrapped 2 :=
  ⟨by decide,
    (get_real_index_injective sample_wrapped 0 2 (by decide) (by decide) (by decide)
      (by decide)).1⟩

/-- C20: a push followed by a pop of one record rewinds the bookkeeping.  On
a valid buffer, for every keycode, st_key_buffer_push then
st_key_buffer_pop(buf, 1) gives back the original cur_pos, and the original
context_len whenever it was below size; when the buffer was full context_len
becomes size - 1. -/
theorem push_pop_rewinds (buf : st_key_buffer_t) (k : Nat) (h : Valid buf) :
    (st_key_buffer_pop (st_key_buffer_push buf k) 1).cur_pos = buf.cur_pos ∧
    (buf.context_len < buf.size →
      (st_key_buffer_pop (st_key_buffer_push buf k) 1).context_len = buf.context_len) ∧
    (buf.context_len = buf.size →
      (st_key_buffer_pop (st_key_buffer_push buf k) 1).context_len = buf.size - 1) := by
  have hv := st_key_buffer_push_valid buf k h
  obtain ⟨hc, hp⟩ := st_key_buffer_push_window buf k h
  have hsz := (st_key_buffer_push_fields buf k).1
  have hpop : st_key_buffer_pop (st_key_buffer_push buf k) 1 =
      resize_context (st_key_buffer_push buf k) (-1) := rfl
  unfold Valid at h hv
  obtain ⟨_, _, hc2, hp2⟩ :=
    resize_context_accepted (st_key_buffer_push buf k) (-1) (by omega) (by omega)
  rw [hpop, hc2, hp2, hc, hp, hsz]
  refine ⟨?_, ?_, ?_⟩
  · split_ifs <;> omega
  · intro hlt; split_ifs <;> omega
  · intro hfull; split_ifs <;> omega

/-- C20, on a wrapped buffer of capacity 4 with window length 3 and cursor 1:
after a push and a pop of one record the cursor is 1 and the window 3. -/
theorem push_pop_rewinds_witness :
    Valid sample_wrapped ∧
    (st_key_buffer_pop (st_key_buffer_push sample_wrapped 7) 1).cur_pos = 1 ∧
    (st_key_buffer_pop (st_key_buffer_push sample_wrapped 7) 1).context_len = 3 :=
  have w := push_pop_rewinds sample_wrapped 7 (by decide)
  ⟨by decide, w.1, w.2.1 (by decide)⟩

end KeyBuffer
